import Mathlib

/-!
Shallow embedding of the per-bar trading engine of this repository.

Sources embedded here:
  - risk.py: RiskManager.position_size, TradeManager.initial_levels,
    TradeManager.trail_level.
  - backtest_portfolio.py, run_portfolio_backtest (lines 48-130): the per-bar
    loop over open positions (trailing stop, break-even latch, TP1/TP2 partial
    fills, time-stop, stop-loss), the daily-R circuit breaker, the cooldown
    table and the new-entry scan.
  - run_live_week.py, main (lines 204-299): the live per-bar management and
    entry scan, embedded separately where its order of checks differs from the
    backtest.

Python floats are modelled as exact rationals; a possibly-NaN atr value is
modelled as Option, with Python truthiness of the atr local (None and 0.0 are
falsy) made explicit.  Python int() truncation toward zero and math.floor are
modelled separately.  Dict iteration order (insertion order) is modelled by
association lists, the cooldown dict by a total function on symbol names.
-/

namespace Bot

/-- Floor of a rational, computed by flooring integer division; equal to the
mathematical floor (see ratFloor_eq_floor below). -/
def ratFloor (q : ℚ) : ℤ := Int.fdiv q.num q.den

/-- Truncation toward zero, the behaviour of Python int() on a number. -/
def pyInt (q : ℚ) : ℤ := if q.num < 0 then -(ratFloor (-q)) else ratFloor q

inductive Side where
  | long
  | short
deriving DecidableEq, Repr

/-- Directional pnl of closing qty units entered at entry at price exitPrice:
(exitPrice - entry)*qty for a long, (entry - exitPrice)*qty for a short,
as in the pnl expressions of backtest_portfolio.py lines 82/89/97/104. -/
def pnlOf (side : Side) (entry exitPrice qty : ℚ) : ℚ :=
  match side with
  | .long => (exitPrice - entry) * qty
  | .short => (entry - exitPrice) * qty

/-- TradeManager (risk.py): the parameters read by the per-bar engine. -/
structure TM where
  atr_k_sl : ℚ
  r1_R : ℚ
  p1_pct : ℚ
  r2_R : ℚ
  p2_pct : ℚ
  be_after_R : ℚ
  trail_k_before : ℚ
  trail_k_after : ℚ
  max_bars_in_trade : ℕ
deriving DecidableEq, Repr

/-- risk.py TradeManager.initial_levels: returns (sl, tp1, tp2, R). -/
def TM.initial_levels (tm : TM) (side : Side) (entry a : ℚ) : ℚ × ℚ × ℚ × ℚ :=
  match side with
  | .long =>
    let sl := entry - tm.atr_k_sl * a
    let R := entry - sl
    (sl, entry + tm.r1_R * R, entry + tm.r2_R * R, R)
  | .short =>
    let sl := entry + tm.atr_k_sl * a
    let R := sl - entry
    (sl, entry - tm.r1_R * R, entry - tm.r2_R * R, R)

/-- risk.py TradeManager.trail_level. -/
def TM.trail_level (tm : TM) (side : Side) (price a : ℚ) (after_tp1 : Bool) : ℚ :=
  let k := if after_tp1 then tm.trail_k_after else tm.trail_k_before
  match side with
  | .long => price - k * a
  | .short => price + k * a

/-- risk.py RiskManager: the fields read by position_size. -/
structure RiskManager where
  equity : ℚ
  risk_per_trade : ℚ
  max_position_pct : ℚ
deriving DecidableEq, Repr

/-- risk.py RiskManager.position_size: qty by risk vs qty by notional cap,
floored (math.floor) to the 1e-6 lot step; 0.0 when the per-unit risk
abs(entry_price - sl_price) is not positive. -/
def RiskManager.position_size (rm : RiskManager) (entry_price sl_price : ℚ) : ℚ :=
  let risk_amt := rm.equity * rm.risk_per_trade
  let risk_per_unit := |entry_price - sl_price|
  if risk_per_unit ≤ 0 then 0
  else
    let qty_by_risk := risk_amt / risk_per_unit
    let max_notional := rm.equity * rm.max_position_pct
    let qty_by_cap := max_notional / entry_price
    let qty := min qty_by_risk qty_by_cap
    ((ratFloor (qty * 1000000) : ℤ) : ℚ) / 1000000

/-- One open position, the dict stored in open_pos / open_positions. -/
structure Pos where
  side : Side
  entry : ℚ
  sl : ℚ
  tp1 : ℚ
  tp2 : ℚ
  qty : ℚ
  R : ℚ
  tp1_done : Bool
  tp2_done : Bool
  moved_to_be : Bool
  bars : ℕ
deriving DecidableEq, Repr

inductive EType where
  | ENTER
  | TP1
  | TP2
  | SL
  | TIME
deriving DecidableEq, Repr

/-- One record appended to the trade log.  equity is the equity value recorded
with the event (the running equity after the event's pnl is applied); ENTER
records carry no pnl. -/
structure Event where
  ty : EType
  sym : String
  side : Side
  price : ℚ
  qty : ℚ
  pnl : Option ℚ
  equity : ℚ
deriving DecidableEq, Repr

/-- Python truthiness of the atr_now local: None (NaN in the row) and 0.0 are
falsy, every other float is truthy. -/
def atrTruthy (a : Option ℚ) : Bool :=
  match a with
  | none => false
  | some x => x != 0

/-- Did this bar's close cross the take-profit level of the position? -/
def tpHit (side : Side) (price level : ℚ) : Bool :=
  match side with
  | .long => level ≤ price
  | .short => price ≤ level

/-- Did this bar's close cross the current stop (given the side and the
stop level)? -/
def slHitB (side : Side) (sl price : ℚ) : Bool :=
  match side with
  | .long => price ≤ sl
  | .short => sl ≤ price

/-- Trailing-stop tighten (backtest_portfolio.py lines 69-72 and the textually
identical run_live_week.py lines 217-222): when the atr local is truthy the
stop is maxed (long) or minned (short) against the trail level. -/
def trailPhase (tm : TM) (price : ℚ) (atrOpt : Option ℚ) (pos : Pos) : Pos :=
  if atrTruthy atrOpt then
    let trail := tm.trail_level pos.side price (atrOpt.getD 0) pos.tp1_done
    match pos.side with
    | .long => { pos with sl := max pos.sl trail }
    | .short => { pos with sl := min pos.sl trail }
  else pos

/-- Break-even latch (backtest_portfolio.py lines 74-78, run_live_week.py
lines 224-230): once price has moved be_after_R * R in favour, the stop is
tightened against the entry price and the one-way flag moved_to_be is set. -/
def bePhase (tm : TM) (price : ℚ) (atrOpt : Option ℚ) (pos : Pos) : Pos :=
  if !pos.moved_to_be && atrTruthy atrOpt then
    match pos.side with
    | .long =>
      if pos.entry + tm.be_after_R * pos.R ≤ price then
        { pos with sl := max pos.sl pos.entry, moved_to_be := true }
      else pos
    | .short =>
      if price ≤ pos.entry - tm.be_after_R * pos.R then
        { pos with sl := min pos.sl pos.entry, moved_to_be := true }
      else pos
  else pos

/-- Output of one take-profit phase: updated position, running equity, records
appended, and whether the fill fired this bar. -/
structure TPOut where
  pos : Pos
  equity : ℚ
  events : List Event
  fired : Bool
deriving DecidableEq, Repr

/-- TP1 partial fill (backtest_portfolio.py lines 80-85, run_live_week.py
lines 232-238): close p1_pct of the current quantity at the close price. -/
def tp1Phase (tm : TM) (sym : String) (price equity : ℚ) (pos : Pos) : TPOut :=
  if !pos.tp1_done && tpHit pos.side price pos.tp1 then
    let close_qty := pos.qty * tm.p1_pct
    let pnl := pnlOf pos.side pos.entry price close_qty
    let eq' := equity + pnl
    { pos := { pos with qty := pos.qty - close_qty, tp1_done := true },
      equity := eq',
      events := [⟨.TP1, sym, pos.side, price, close_qty, some pnl, eq'⟩],
      fired := true }
  else { pos := pos, equity := equity, events := [], fired := false }

/-- TP2 partial fill (backtest_portfolio.py lines 87-92, run_live_week.py
lines 240-246): close p2_pct of the current (post-TP1) quantity. -/
def tp2Phase (tm : TM) (sym : String) (price equity : ℚ) (pos : Pos) : TPOut :=
  if !pos.tp2_done && tpHit pos.side price pos.tp2 then
    let close_qty := pos.qty * tm.p2_pct
    let pnl := pnlOf pos.side pos.entry price close_qty
    let eq' := equity + pnl
    { pos := { pos with qty := pos.qty - close_qty, tp2_done := true },
      equity := eq',
      events := [⟨.TP2, sym, pos.side, price, close_qty, some pnl, eq'⟩],
      fired := true }
  else { pos := pos, equity := equity, events := [], fired := false }

/-- Output of the shared update prefix of the per-position management. -/
structure UpOut where
  pos : Pos
  events : List Event
  equity : ℚ
  tp1F : Bool
  tp2F : Bool
deriving DecidableEq, Repr

/-- The update prefix shared verbatim by backtest_portfolio.py lines 69-92 and
run_live_week.py lines 217-246: trailing tighten, break-even latch, TP1 fill,
TP2 fill, in that order. -/
def updatePhase (tm : TM) (sym : String) (price : ℚ) (atrOpt : Option ℚ)
    (equity : ℚ) (pos0 : Pos) : UpOut :=
  let pos1 := trailPhase tm price atrOpt pos0
  let pos2 := bePhase tm price atrOpt pos1
  let t1 := tp1Phase tm sym price equity pos2
  let t2 := tp2Phase tm sym price t1.equity t1.pos
  { pos := t2.pos, events := t1.events ++ t2.events, equity := t2.equity,
    tp1F := t1.fired, tp2F := t2.fired }

/-- Result of managing one open position for one bar in the backtest. -/
structure BTOut where
  pos : Pos
  removed : Bool
  events : List Event
  equity : ℚ
  dailyR : ℚ
deriving DecidableEq, Repr

/-- Backtest per-position management for one bar (backtest_portfolio.py lines
63-107): the shared update prefix, then bars += 1, then the time-stop (which
skips the stop-loss check via continue), then the stop-loss exit at the stop
price.  daily_R gains r1_R / r2_R exactly when TP1 / TP2 fired (the source
adds them inside those blocks; the sum is the same) and loses 1.0 on SL. -/
def manageBT (tm : TM) (sym : String) (price : ℚ) (atrOpt : Option ℚ)
    (equity dailyR : ℚ) (pos0 : Pos) : BTOut :=
  let u := updatePhase tm sym price atrOpt equity pos0
  let dR := dailyR + (if u.tp1F then tm.r1_R else 0) + (if u.tp2F then tm.r2_R else 0)
  let pos := { u.pos with bars := u.pos.bars + 1 }
  if tm.max_bars_in_trade ≤ pos.bars ∧ pos.tp2_done = false then
    let pnl := pnlOf pos.side pos.entry price pos.qty
    { pos := pos, removed := true,
      events := u.events ++ [⟨.TIME, sym, pos.side, price, pos.qty, some pnl, u.equity + pnl⟩],
      equity := u.equity + pnl, dailyR := dR }
  else if slHitB pos.side pos.sl price then
    let pnl := pnlOf pos.side pos.entry pos.sl pos.qty
    { pos := pos, removed := true,
      events := u.events ++ [⟨.SL, sym, pos.side, pos.sl, pos.qty, some pnl, u.equity + pnl⟩],
      equity := u.equity + pnl, dailyR := dR - 1 }
  else
    { pos := pos, removed := false, events := u.events, equity := u.equity, dailyR := dR }

/-- Result of managing one open position for one bar in the live loop. -/
structure LiveOut where
  pos : Pos
  removed : Bool
  events : List Event
  equity : ℚ
deriving DecidableEq, Repr

/-- Live per-position management for one bar (run_live_week.py lines 206-260):
the shared update prefix, then the stop-loss check (before the bar counter is
incremented and with no continue), then bars += 1, then the time-stop; both
exits can fire on the same bar, each realizing pnl on the remaining qty. -/
def manageLive (tm : TM) (sym : String) (price : ℚ) (atrOpt : Option ℚ)
    (equity : ℚ) (pos0 : Pos) : LiveOut :=
  let u := updatePhase tm sym price atrOpt equity pos0
  let slFired := slHitB u.pos.side u.pos.sl price
  let pnlSL := pnlOf u.pos.side u.pos.entry u.pos.sl u.pos.qty
  let evsSL : List Event :=
    if slFired then [⟨.SL, sym, u.pos.side, u.pos.sl, u.pos.qty, some pnlSL, u.equity + pnlSL⟩]
    else []
  let eqSL := if slFired then u.equity + pnlSL else u.equity
  let pos := { u.pos with bars := u.pos.bars + 1 }
  if tm.max_bars_in_trade ≤ pos.bars ∧ pos.tp2_done = false then
    let pnl := pnlOf pos.side pos.entry price pos.qty
    { pos := pos, removed := true,
      events := u.events ++ evsSL ++ [⟨.TIME, sym, pos.side, price, pos.qty, some pnl, eqSL + pnl⟩],
      equity := eqSL + pnl }
  else
    { pos := pos, removed := slFired, events := u.events ++ evsSL, equity := eqSL }

/-- The keyword parameters of run_portfolio_backtest read by the per-bar loop.
cooldown_bars_after_loss is accepted by the function but never read in the
loop body; it is kept here to state that fact. -/
structure Params where
  risk_per_trade : ℚ
  max_position_pct : ℚ
  max_concurrent_positions : ℕ
  daily_loss_cap_R : ℚ
  cooldown_bars_after_loss : ℤ
  tm : TM

/-- One symbol's feature row at one timestamp: close, atr (none models NaN),
and the two entry-setup flags. -/
structure BarRow where
  close : ℚ
  atr : Option ℚ
  long_setup : Bool
  short_setup : Bool
deriving DecidableEq, Repr

/-- The mutable state of the backtest loop between bars. -/
structure PortState where
  equity : ℚ
  dailyR : ℚ
  lastDay : Option ℕ
  openPos : List (String × Pos)
  cooldowns : String → ℤ

/-- Result of the open-position management pass of one bar. -/
structure FoldOut where
  openPos : List (String × Pos)
  equity : ℚ
  dailyR : ℚ
  events : List Event

/-- The loop over open_pos.items() of backtest_portfolio.py lines 62-109:
each open position is managed in insertion order, equity and daily_R are
threaded through, and positions put on to_close are dropped afterwards. -/
def managePositions (tm : TM) (rows : String → BarRow) :
    List (String × Pos) → ℚ → ℚ → FoldOut
  | [], equity, dailyR => { openPos := [], equity := equity, dailyR := dailyR, events := [] }
  | (sym, pos) :: rest, equity, dailyR =>
    let out := manageBT tm sym (rows sym).close (rows sym).atr equity dailyR pos
    let r := managePositions tm rows rest out.equity out.dailyR
    { openPos := if out.removed then r.openPos else (sym, out.pos) :: r.openPos,
      equity := r.equity, dailyR := r.dailyR, events := out.events ++ r.events }

/-- Result of the new-entry scan of one bar. -/
structure ScanOut where
  openPos : List (String × Pos)
  cooldowns : String → ℤ
  events : List Event

/-- The per-symbol entry decision of backtest_portfolio.py lines 116-129: a
NaN or nonpositive atr, no setup signal, a nonpositive stop distance R, or a
nonpositive truncated quantity mean no entry; otherwise the freshly opened
position (initial levels from TradeManager.initial_levels, quantity
min(risk, cap) truncated by int() to the 1e-6 lot step). -/
def tryEnter (p : Params) (row : BarRow) (equity : ℚ) : Option Pos :=
  match row.atr with
  | none => none
  | some a =>
    if a ≤ 0 then none
    else
      let sig : ℤ := if row.long_setup then 1 else if row.short_setup then -1 else 0
      if sig = 0 then none
      else
        let price := row.close
        let side := if sig = 1 then Side.long else Side.short
        let lv := p.tm.initial_levels side price a
        if lv.2.2.2 ≤ 0 then none
        else
          let qty0 := min (equity * p.risk_per_trade / lv.2.2.2)
                          (equity * p.max_position_pct / price)
          let qty := ((pyInt (qty0 * 1000000) : ℤ) : ℚ) / 1000000
          if qty ≤ 0 then none
          else
            some { side := side, entry := price, sl := lv.1, tp1 := lv.2.1,
                   tp2 := lv.2.2.1, qty := qty, R := lv.2.2.2,
                   tp1_done := false, tp2_done := false, moved_to_be := false, bars := 0 }

/-- The new-entry scan of backtest_portfolio.py lines 112-130, run only when
the circuit breaker is not triggered: a symbol that is open or has a positive
cooldown gets its counter decremented (clamped at 0) and is skipped; the loop
breaks at the concurrency cap; otherwise tryEnter decides whether an ENTER is
recorded and the position appended to the open set. -/
def entryScan (p : Params) (rows : String → BarRow) (equity : ℚ) :
    List String → List (String × Pos) → (String → ℤ) → ScanOut
  | [], openPos, cds => { openPos := openPos, cooldowns := cds, events := [] }
  | sym :: rest, openPos, cds =>
    if openPos.any (fun q => q.1 == sym) || 0 < cds sym then
      let cds' := fun s => if s = sym then max 0 (cds sym - 1) else cds s
      entryScan p rows equity rest openPos cds'
    else if p.max_concurrent_positions ≤ openPos.length then
      { openPos := openPos, cooldowns := cds, events := [] }
    else
      match tryEnter p (rows sym) equity with
      | none => entryScan p rows equity rest openPos cds
      | some pos =>
        let r := entryScan p rows equity rest (openPos ++ [(sym, pos)]) cds
        { openPos := r.openPos, cooldowns := r.cooldowns,
          events := ⟨.ENTER, sym, pos.side, pos.entry, pos.qty, none, equity⟩ :: r.events }

/-- One bar of run_portfolio_backtest (lines 58-130): reset daily_R on a day
change, manage the open positions, drop closed ones, then scan for entries
unless daily_R has fallen to the circuit-breaker cap. -/
def barStepBT (p : Params) (symbols : List String) (rows : String → BarRow)
    (day : ℕ) (st : PortState) : PortState × List Event :=
  let st1 : PortState :=
    if st.lastDay = some day then st
    else { st with dailyR := 0, lastDay := some day }
  let f := managePositions p.tm rows st1.openPos st1.equity st1.dailyR
  if p.daily_loss_cap_R < f.dailyR then
    let s := entryScan p rows f.equity symbols f.openPos st1.cooldowns
    ({ equity := f.equity, dailyR := f.dailyR, lastDay := some day,
       openPos := s.openPos, cooldowns := s.cooldowns }, f.events ++ s.events)
  else
    ({ equity := f.equity, dailyR := f.dailyR, lastDay := some day,
       openPos := f.openPos, cooldowns := st1.cooldowns }, f.events)

/-- Run the backtest loop over a list of bars, each a calendar-day tag plus the
per-symbol feature rows at that timestamp. -/
def runBT (p : Params) (symbols : List String) :
    PortState → List (ℕ × (String → BarRow)) → PortState × List Event
  | st, [] => (st, [])
  | st, (day, rows) :: rest =>
    let b := barStepBT p symbols rows day st
    let r := runBT p symbols b.1 rest
    (r.1, b.2 ++ r.2)

/-- The initial loop state of run_portfolio_backtest lines 48-56. -/
def initState (equity0 : ℚ) : PortState :=
  { equity := equity0, dailyR := 0, lastDay := none, openPos := [],
    cooldowns := fun _ => 0 }

/-- Running equity after applying an event's recorded pnl (ENTER records
carry none and leave it unchanged). -/
def stepEquity (eq : ℚ) (e : Event) : ℚ :=
  match e.pnl with
  | some p => eq + p
  | none => eq

/-- Replay a record list, accumulating each pnl into a running equity. -/
def replayEquity : ℚ → List Event → ℚ
  | eq, [] => eq
  | eq, e :: rest => replayEquity (stepEquity eq e) rest

/-- Check that every record's stored equity equals the running equity before
it plus its own pnl: equity conservation along the record list. -/
def conserveB : ℚ → List Event → Bool
  | _, [] => true
  | eq, e :: rest => (e.equity == stepEquity eq e) && conserveB (stepEquity eq e) rest

/-- Does the record list contain an event of the given type? -/
def hasEv (t : EType) (evs : List Event) : Bool := evs.any (fun e => e.ty == t)

/-! Concrete fixtures used by counterexamples and witnesses below. -/

/-- A small TradeManager: k_sl 1, TP1 at 1R closing half, TP2 at 2R closing
half, break-even after 5R, trail 10 ATRs away, time-stop after 100 bars. -/
def tmX : TM := ⟨1, 1, 1/2, 2, 1/2, 5, 10, 10, 100⟩

/-- Same TradeManager but with a 1-bar time-stop. -/
def tmTime : TM := ⟨1, 1, 1/2, 2, 1/2, 5, 10, 10, 1⟩

/-- A long position entered at 10 with stop 9, R 1, qty 10, take-profits far
away, no flags set. -/
def posX : Pos := ⟨.long, 10, 9, 200, 300, 10, 1, false, false, false, 0⟩

def pC1 : Params := ⟨1/10, 1, 6, -1, 2, tmX⟩

def rowsC1a : String → BarRow := fun _ => ⟨10, some 1, true, false⟩

def rowsC1b : String → BarRow :=
  fun s => if s = "A" then ⟨8, some 1, true, false⟩ else ⟨10, some 1, false, false⟩

def rowsC1c : String → BarRow :=
  fun s => if s = "A" then ⟨10, some 1, true, false⟩ else ⟨11, some 1, false, false⟩

/-- Backtest state after the first bar of the C1 run: both symbols entered. -/
def stC1a : PortState := (barStepBT pC1 ["A", "B"] rowsC1a 0 (initState 1000)).1

/-- Backtest state after the second bar of the C1 run: A stopped out,
daily_R at the cap. -/
def stC1b : PortState := (barStepBT pC1 ["A", "B"] rowsC1b 0 stC1a).1

def pC6 : Params := ⟨1/10, 1, 6, -4, 2, tmX⟩

def rowsC6 : String → BarRow := fun _ => ⟨5, none, false, false⟩

/-- A state whose daily_R is already below the cap, with a stale positive
cooldown on symbol B. -/
def stC6a : PortState :=
  { equity := 1000, dailyR := -5, lastDay := some 0, openPos := [],
    cooldowns := fun s => if s = "B" then 2 else 0 }

/-- A long position far from all its levels: the bar at close 5 neither
stops it out nor fills any take-profit. -/
def posC6 : Pos := ⟨.long, 10, 1, 1000, 2000, 1, 1, false, false, false, 0⟩

/-- A state with symbol A open and a positive cooldown on A. -/
def stC6b : PortState :=
  { equity := 1000, dailyR := 0, lastDay := some 0, openPos := [("A", posC6)],
    cooldowns := fun s => if s = "A" then 5 else 0 }

end Bot

/-! # Theorems -/

namespace Bot

set_option maxRecDepth 8000

/-- ratFloor is the mathematical floor. -/
theorem ratFloor_eq_floor (q : ℚ) : ratFloor q = ⌊q⌋ := by
  unfold ratFloor
  rw [Rat.floor_def, Int.fdiv_eq_ediv _ (by positivity)]

section PhaseLemmas

variable (tm : TM) (sym : String) (price equity : ℚ) (a : Option ℚ) (pos : Pos)

@[simp] theorem trailPhase_side : (trailPhase tm price a pos).side = pos.side := by
  rcases pos with ⟨s, _, _, _, _, _, _, _, _, _, _⟩
  cases s <;> unfold trailPhase <;> split_ifs <;> rfl

@[simp] theorem trailPhase_entry : (trailPhase tm price a pos).entry = pos.entry := by
  rcases pos with ⟨s, _, _, _, _, _, _, _, _, _, _⟩
  cases s <;> unfold trailPhase <;> split_ifs <;> rfl

@[simp] theorem trailPhase_qty : (trailPhase tm price a pos).qty = pos.qty := by
  rcases pos with ⟨s, _, _, _, _, _, _, _, _, _, _⟩
  cases s <;> unfold trailPhase <;> split_ifs <;> rfl

@[simp] theorem trailPhase_R : (trailPhase tm price a pos).R = pos.R := by
  rcases pos with ⟨s, _, _, _, _, _, _, _, _, _, _⟩
  cases s <;> unfold trailPhase <;> split_ifs <;> rfl

@[simp] theorem trailPhase_bars : (trailPhase tm price a pos).bars = pos.bars := by
  rcases pos with ⟨s, _, _, _, _, _, _, _, _, _, _⟩
  cases s <;> unfold trailPhase <;> split_ifs <;> rfl

@[simp] theorem trailPhase_tp1 : (trailPhase tm price a pos).tp1 = pos.tp1 := by
  rcases pos with ⟨s, _, _, _, _, _, _, _, _, _, _⟩
  cases s <;> unfold trailPhase <;> split_ifs <;> rfl

@[simp] theorem trailPhase_tp2 : (trailPhase tm price a pos).tp2 = pos.tp2 := by
  rcases pos with ⟨s, _, _, _, _, _, _, _, _, _, _⟩
  cases s <;> unfold trailPhase <;> split_ifs <;> rfl

@[simp] theorem trailPhase_tp1_done : (trailPhase tm price a pos).tp1_done = pos.tp1_done := by
  rcases pos with ⟨s, _, _, _, _, _, _, _, _, _, _⟩
  cases s <;> unfold trailPhase <;> split_ifs <;> rfl

@[simp] theorem trailPhase_tp2_done : (trailPhase tm price a pos).tp2_done = pos.tp2_done := by
  rcases pos with ⟨s, _, _, _, _, _, _, _, _, _, _⟩
  cases s <;> unfold trailPhase <;> split_ifs <;> rfl

@[simp] theorem trailPhase_moved : (trailPhase tm price a pos).moved_to_be = pos.moved_to_be := by
  rcases pos with ⟨s, _, _, _, _, _, _, _, _, _, _⟩
  cases s <;> unfold trailPhase <;> split_ifs <;> rfl

theorem trailPhase_sl_long (h : pos.side = .long) :
    pos.sl ≤ (trailPhase tm price a pos).sl := by
  rcases pos with ⟨s, _, _, _, _, _, _, _, _, _, _⟩
  cases s
  · unfold trailPhase; split_ifs <;> simp [le_max_left]
  · simp at h

theorem trailPhase_sl_short (h : pos.side = .short) :
    (trailPhase tm price a pos).sl ≤ pos.sl := by
  rcases pos with ⟨s, _, _, _, _, _, _, _, _, _, _⟩
  cases s
  · simp at h
  · unfold trailPhase; split_ifs <;> simp [min_le_left]

@[simp] theorem bePhase_side : (bePhase tm price a pos).side = pos.side := by
  rcases pos with ⟨s, _, _, _, _, _, _, _, _, _, _⟩
  cases s <;> unfold bePhase <;> split_ifs <;> rfl

@[simp] theorem bePhase_entry : (bePhase tm price a pos).entry = pos.entry := by
  rcases pos with ⟨s, _, _, _, _, _, _, _, _, _, _⟩
  cases s <;> unfold bePhase <;> split_ifs <;> rfl

@[simp] theorem bePhase_qty : (bePhase tm price a pos).qty = pos.qty := by
  rcases pos with ⟨s, _, _, _, _, _, _, _, _, _, _⟩
  cases s <;> unfold bePhase <;> split_ifs <;> rfl

@[simp] theorem bePhase_R : (bePhase tm price a pos).R = pos.R := by
  rcases pos with ⟨s, _, _, _, _, _, _, _, _, _, _⟩
  cases s <;> unfold bePhase <;> split_ifs <;> rfl

@[simp] theorem bePhase_bars : (bePhase tm price a pos).bars = pos.bars := by
  rcases pos with ⟨s, _, _, _, _, _, _, _, _, _, _⟩
  cases s <;> unfold bePhase <;> split_ifs <;> rfl

@[simp] theorem bePhase_tp1 : (bePhase tm price a pos).tp1 = pos.tp1 := by
  rcases pos with ⟨s, _, _, _, _, _, _, _, _, _, _⟩
  cases s <;> unfold bePhase <;> split_ifs <;> rfl

@[simp] theorem bePhase_tp2 : (bePhase tm price a pos).tp2 = pos.tp2 := by
  rcases pos with ⟨s, _, _, _, _, _, _, _, _, _, _⟩
  cases s <;> unfold bePhase <;> split_ifs <;> rfl

@[simp] theorem bePhase_tp1_done : (bePhase tm price a pos).tp1_done = pos.tp1_done := by
  rcases pos with ⟨s, _, _, _, _, _, _, _, _, _, _⟩
  cases s <;> unfold bePhase <;> split_ifs <;> rfl

@[simp] theorem bePhase_tp2_done : (bePhase tm price a pos).tp2_done = pos.tp2_done := by
  rcases pos with ⟨s, _, _, _, _, _, _, _, _, _, _⟩
  cases s <;> unfold bePhase <;> split_ifs <;> rfl

theorem bePhase_sl_long (h : pos.side = .long) :
    pos.sl ≤ (bePhase tm price a pos).sl := by
  rcases pos with ⟨s, _, _, _, _, _, _, _, _, _, _⟩
  cases s
  · unfold bePhase; split_ifs <;> simp [le_max_left]
  · simp at h

theorem bePhase_sl_short (h : pos.side = .short) :
    (bePhase tm price a pos).sl ≤ pos.sl := by
  rcases pos with ⟨s, _, _, _, _, _, _, _, _, _, _⟩
  cases s
  · simp at h
  · unfold bePhase; split_ifs <;> simp [min_le_left]

@[simp] theorem tp1Phase_side : (tp1Phase tm sym price equity pos).pos.side = pos.side := by
  unfold tp1Phase; split_ifs <;> rfl

@[simp] theorem tp1Phase_entry : (tp1Phase tm sym price equity pos).pos.entry = pos.entry := by
  unfold tp1Phase; split_ifs <;> rfl

@[simp] theorem tp1Phase_sl : (tp1Phase tm sym price equity pos).pos.sl = pos.sl := by
  unfold tp1Phase; split_ifs <;> rfl

@[simp] theorem tp1Phase_R : (tp1Phase tm sym price equity pos).pos.R = pos.R := by
  unfold tp1Phase; split_ifs <;> rfl

@[simp] theorem tp1Phase_bars : (tp1Phase tm sym price equity pos).pos.bars = pos.bars := by
  unfold tp1Phase; split_ifs <;> rfl

@[simp] theorem tp1Phase_tp2 : (tp1Phase tm sym price equity pos).pos.tp2 = pos.tp2 := by
  unfold tp1Phase; split_ifs <;> rfl

@[simp] theorem tp1Phase_tp2_done :
    (tp1Phase tm sym price equity pos).pos.tp2_done = pos.tp2_done := by
  unfold tp1Phase; split_ifs <;> rfl

@[simp] theorem tp1Phase_moved :
    (tp1Phase tm sym price equity pos).pos.moved_to_be = pos.moved_to_be := by
  unfold tp1Phase; split_ifs <;> rfl

@[simp] theorem tp2Phase_side : (tp2Phase tm sym price equity pos).pos.side = pos.side := by
  unfold tp2Phase; split_ifs <;> rfl

@[simp] theorem tp2Phase_entry : (tp2Phase tm sym price equity pos).pos.entry = pos.entry := by
  unfold tp2Phase; split_ifs <;> rfl

@[simp] theorem tp2Phase_sl : (tp2Phase tm sym price equity pos).pos.sl = pos.sl := by
  unfold tp2Phase; split_ifs <;> rfl

@[simp] theorem tp2Phase_R : (tp2Phase tm sym price equity pos).pos.R = pos.R := by
  unfold tp2Phase; split_ifs <;> rfl

@[simp] theorem tp2Phase_bars : (tp2Phase tm sym price equity pos).pos.bars = pos.bars := by
  unfold tp2Phase; split_ifs <;> rfl

@[simp] theorem tp2Phase_tp1_done :
    (tp2Phase tm sym price equity pos).pos.tp1_done = pos.tp1_done := by
  unfold tp2Phase; split_ifs <;> rfl

@[simp] theorem tp2Phase_moved :
    (tp2Phase tm sym price equity pos).pos.moved_to_be = pos.moved_to_be := by
  unfold tp2Phase; split_ifs <;> rfl

theorem tp2Phase_tp2_done_mono (h : pos.tp2_done = true) :
    (tp2Phase tm sym price equity pos).pos.tp2_done = true := by
  unfold tp2Phase; split_ifs <;> simp [h]

@[simp] theorem updatePhase_side :
    (updatePhase tm sym price a equity pos).pos.side = pos.side := by
  unfold updatePhase; simp

@[simp] theorem updatePhase_entry :
    (updatePhase tm sym price a equity pos).pos.entry = pos.entry := by
  unfold updatePhase; simp

@[simp] theorem updatePhase_bars :
    (updatePhase tm sym price a equity pos).pos.bars = pos.bars := by
  unfold updatePhase; simp

@[simp] theorem updatePhase_R :
    (updatePhase tm sym price a equity pos).pos.R = pos.R := by
  unfold updatePhase; simp

theorem updatePhase_sl_long (h : pos.side = .long) :
    pos.sl ≤ (updatePhase tm sym price a equity pos).pos.sl := by
  unfold updatePhase
  simp only [tp2Phase_sl, tp1Phase_sl]
  exact le_trans (trailPhase_sl_long tm price a pos h)
    (bePhase_sl_long tm price a _ (by simp [h]))

theorem updatePhase_sl_short (h : pos.side = .short) :
    (updatePhase tm sym price a equity pos).pos.sl ≤ pos.sl := by
  unfold updatePhase
  simp only [tp2Phase_sl, tp1Phase_sl]
  exact le_trans (bePhase_sl_short tm price a _ (by simp [h]))
    (trailPhase_sl_short tm price a pos h)

theorem updatePhase_tp2_done_mono (h : pos.tp2_done = true) :
    (updatePhase tm sym price a equity pos).pos.tp2_done = true := by
  unfold updatePhase
  simp only []
  exact tp2Phase_tp2_done_mono _ _ _ _ _ (by simp [h])

end PhaseLemmas

section EventLemmas

@[simp] theorem hasEv_nil (t : EType) : hasEv t [] = false := rfl

@[simp] theorem hasEv_append (t : EType) (l1 l2 : List Event) :
    hasEv t (l1 ++ l2) = (hasEv t l1 || hasEv t l2) := by
  simp [hasEv, List.any_append]

@[simp] theorem hasEv_cons (t : EType) (e : Event) (l : List Event) :
    hasEv t (e :: l) = ((e.ty == t) || hasEv t l) := by
  simp [hasEv]

theorem replayEquity_append (eq : ℚ) (l1 l2 : List Event) :
    replayEquity eq (l1 ++ l2) = replayEquity (replayEquity eq l1) l2 := by
  induction l1 generalizing eq with
  | nil => rfl
  | cons e rest ih => simp [replayEquity, ih]

theorem conserveB_append (eq : ℚ) (l1 l2 : List Event) :
    conserveB eq (l1 ++ l2) =
      (conserveB eq l1 && conserveB (replayEquity eq l1) l2) := by
  induction l1 generalizing eq with
  | nil => simp [conserveB, replayEquity]
  | cons e rest ih => simp [conserveB, replayEquity, ih, Bool.and_assoc]

theorem filter_eq_nil_of_hasEv_false (t : EType) (l : List Event)
    (h : hasEv t l = false) : l.filter (fun e => e.ty == t) = [] := by
  induction l with
  | nil => rfl
  | cons e rest ih =>
    simp only [hasEv_cons, Bool.or_eq_false_iff] at h
    simp [List.filter, h.1, ih h.2]

end EventLemmas

section UpdatePhaseLemmas

variable (tm : TM) (sym : String) (price equity : ℚ) (a : Option ℚ) (pos : Pos)

@[simp] theorem updatePhase_hasEv_TP1 :
    hasEv .TP1 (updatePhase tm sym price a equity pos).events =
      (updatePhase tm sym price a equity pos).tp1F := by
  simp only [updatePhase, tp1Phase, tp2Phase]
  split_ifs <;> simp [hasEv]

@[simp] theorem updatePhase_hasEv_TP2 :
    hasEv .TP2 (updatePhase tm sym price a equity pos).events =
      (updatePhase tm sym price a equity pos).tp2F := by
  simp only [updatePhase, tp1Phase, tp2Phase]
  split_ifs <;> simp [hasEv]

@[simp] theorem updatePhase_hasEv_SL :
    hasEv .SL (updatePhase tm sym price a equity pos).events = false := by
  simp only [updatePhase, tp1Phase, tp2Phase]
  split_ifs <;> simp [hasEv]

@[simp] theorem updatePhase_hasEv_TIME :
    hasEv .TIME (updatePhase tm sym price a equity pos).events = false := by
  simp only [updatePhase, tp1Phase, tp2Phase]
  split_ifs <;> simp [hasEv]

@[simp] theorem updatePhase_hasEv_ENTER :
    hasEv .ENTER (updatePhase tm sym price a equity pos).events = false := by
  simp only [updatePhase, tp1Phase, tp2Phase]
  split_ifs <;> simp [hasEv]

theorem updatePhase_mem_events (e : Event)
    (h : e ∈ (updatePhase tm sym price a equity pos).events) :
    (e.ty = .TP1 ∨ e.ty = .TP2) ∧ e.sym = sym := by
  revert h
  simp only [updatePhase, tp1Phase, tp2Phase]
  split_ifs <;> intro h <;> simp at h <;>
    first
    | (rcases h with h | h <;> subst h <;> simp)
    | (subst h; simp)

theorem updatePhase_conserve :
    conserveB equity (updatePhase tm sym price a equity pos).events = true
    ∧ (updatePhase tm sym price a equity pos).equity =
        replayEquity equity (updatePhase tm sym price a equity pos).events := by
  simp only [updatePhase, tp1Phase, tp2Phase]
  split_ifs <;> simp [conserveB, stepEquity, replayEquity]

end UpdatePhaseLemmas

section ManageBTLemmas

variable (tm : TM) (sym : String) (price equity dailyR : ℚ) (a : Option ℚ) (pos : Pos)

theorem manageBT_removed_iff :
    (manageBT tm sym price a equity dailyR pos).removed =
      (hasEv .SL (manageBT tm sym price a equity dailyR pos).events
        || hasEv .TIME (manageBT tm sym price a equity dailyR pos).events) := by
  simp only [manageBT]
  split_ifs <;> simp

theorem manageBT_mem_events (e : Event)
    (h : e ∈ (manageBT tm sym price a equity dailyR pos).events) :
    e.sym = sym ∧ e.ty ≠ .ENTER := by
  revert h
  simp only [manageBT]
  split_ifs <;> intro h <;>
    first
      | (have hm := updatePhase_mem_events tm sym price equity a pos e h
         exact ⟨hm.2, by rcases hm.1 with h1 | h1 <;> simp [h1]⟩)
      | (rcases List.mem_append.mp h with h' | h'
         · have hm := updatePhase_mem_events tm sym price equity a pos e h'
           exact ⟨hm.2, by rcases hm.1 with h1 | h1 <;> simp [h1]⟩
         · simp only [List.mem_singleton] at h'
           subst h'; exact ⟨rfl, by simp⟩)

theorem manageBT_removed_event
    (h : (manageBT tm sym price a equity dailyR pos).removed = true) :
    ∃ e ∈ (manageBT tm sym price a equity dailyR pos).events,
      e.sym = sym ∧ (e.ty = .SL ∨ e.ty = .TIME) := by
  revert h
  simp only [manageBT]
  split_ifs <;> intro h <;>
    first
      | exact ⟨_, List.mem_append_right _ (List.mem_singleton.mpr rfl), rfl, Or.inr rfl⟩
      | exact ⟨_, List.mem_append_right _ (List.mem_singleton.mpr rfl), rfl, Or.inl rfl⟩
      | simp at h

theorem manageBT_no_enter :
    hasEv .ENTER (manageBT tm sym price a equity dailyR pos).events = false := by
  simp only [manageBT]
  split_ifs <;> simp

theorem manageBT_conserve :
    conserveB equity (manageBT tm sym price a equity dailyR pos).events = true
    ∧ (manageBT tm sym price a equity dailyR pos).equity =
        replayEquity equity (manageBT tm sym price a equity dailyR pos).events := by
  have hu := updatePhase_conserve tm sym price equity a pos
  simp only [manageBT]
  split_ifs <;>
    constructor <;>
      simp [conserveB_append, replayEquity_append, hu.1, ← hu.2, conserveB, replayEquity,
        stepEquity]

end ManageBTLemmas

/-- C2 (amended): over one managed bar, daily_R gains the configured r1_R
exactly when a TP1 record is emitted, gains r2_R exactly when a TP2 record is
emitted, loses exactly 1.0 when an SL record is emitted, and is left unchanged
by a TIME exit. -/
theorem c2_daily_R_update (tm : TM) (sym : String) (price : ℚ) (a : Option ℚ)
    (equity dailyR : ℚ) (pos : Pos) :
    (manageBT tm sym price a equity dailyR pos).dailyR =
      dailyR
      + (if hasEv .TP1 (manageBT tm sym price a equity dailyR pos).events then tm.r1_R else 0)
      + (if hasEv .TP2 (manageBT tm sym price a equity dailyR pos).events then tm.r2_R else 0)
      - (if hasEv .SL (manageBT tm sym price a equity dailyR pos).events then 1 else 0) := by
  simp only [manageBT]
  split_ifs <;> simp_all

/-- C7: the time-stop fires on a managed position exactly when, after the
bar's increment of bars_held, bars_held reaches max_bars_in_trade with
tp2_done still false at that point; when it fires, the full remaining
quantity is closed at the bar's close price, a TIME record is emitted and the
position is removed; a position whose tp2_done flag is already true is never
time-stopped. -/
theorem c7_time_stop (tm : TM) (sym : String) (price : ℚ) (a : Option ℚ)
    (equity dailyR : ℚ) (pos : Pos) :
    (hasEv .TIME (manageBT tm sym price a equity dailyR pos).events = true ↔
      (tm.max_bars_in_trade ≤ pos.bars + 1
        ∧ (updatePhase tm sym price a equity pos).pos.tp2_done = false))
    ∧ (hasEv .TIME (manageBT tm sym price a equity dailyR pos).events = true →
        (manageBT tm sym price a equity dailyR pos).removed = true
        ∧ (manageBT tm sym price a equity dailyR pos).events.filter (fun e => e.ty == .TIME)
            = [⟨.TIME, sym, (updatePhase tm sym price a equity pos).pos.side, price,
                (updatePhase tm sym price a equity pos).pos.qty,
                some (pnlOf (updatePhase tm sym price a equity pos).pos.side pos.entry price
                  (updatePhase tm sym price a equity pos).pos.qty),
                (updatePhase tm sym price a equity pos).equity
                  + pnlOf (updatePhase tm sym price a equity pos).pos.side pos.entry price
                      (updatePhase tm sym price a equity pos).pos.qty⟩])
    ∧ (pos.tp2_done = true →
        hasEv .TIME (manageBT tm sym price a equity dailyR pos).events = false) := by
  have hfil : (updatePhase tm sym price a equity pos).events.filter
      (fun e => e.ty == EType.TIME) = [] :=
    filter_eq_nil_of_hasEv_false _ _ (updatePhase_hasEv_TIME tm sym price equity a pos)
  refine ⟨?_, ?_, ?_⟩
  · simp only [manageBT]
    split_ifs <;> simp_all
  · intro ht
    revert ht
    simp only [manageBT]
    split_ifs <;> intro ht <;> simp_all [List.filter_append]
  · intro h2
    have hm := updatePhase_tp2_done_mono tm sym price equity a pos h2
    simp only [manageBT]
    split_ifs <;> simp_all

/-- C7 witness: on a concrete position one bar from its time limit the TIME
exit fires, removes the position and closes the remaining quantity at the
close price. -/
theorem c7_witness :
    hasEv .TIME (manageBT tmTime "A" 12 none 1000 0 posX).events = true
    ∧ (manageBT tmTime "A" 12 none 1000 0 posX).removed = true := by
  have h := c7_time_stop tmTime "A" 12 none 1000 0 posX
  have ht : hasEv .TIME (manageBT tmTime "A" 12 none 1000 0 posX).events = true :=
    h.1.mpr (by with_unfolding_all decide)
  exact ⟨ht, (h.2.1 ht).1⟩

/-- C9 (amended): position_size returns min(equity*risk_per_trade/R,
equity*max_position_pct/entry) floored to the 1e-6 lot step, with no explicit
clamp; the result is nonnegative whenever equity, risk_per_trade and
max_position_pct are nonnegative and the entry price positive, and whenever
the per-unit risk R = |entry - sl| is not positive the function returns 0
(no exception), which the caller rejects. -/
theorem c9_position_size (rm : RiskManager) (entry_price sl_price : ℚ) :
    (|entry_price - sl_price| ≤ 0 → rm.position_size entry_price sl_price = 0)
    ∧ (0 < |entry_price - sl_price| →
        rm.position_size entry_price sl_price =
          ((⌊min (rm.equity * rm.risk_per_trade / |entry_price - sl_price|)
                (rm.equity * rm.max_position_pct / entry_price) * 1000000⌋ : ℤ) : ℚ)
            / 1000000)
    ∧ (0 ≤ rm.equity → 0 ≤ rm.risk_per_trade → 0 ≤ rm.max_position_pct → 0 < entry_price →
        0 ≤ rm.position_size entry_price sl_price) := by
  refine ⟨?_, ?_, ?_⟩
  · intro h
    simp only [RiskManager.position_size]
    rw [if_pos h]
  · intro h
    simp only [RiskManager.position_size]
    rw [if_neg (not_le.mpr h), ratFloor_eq_floor]
  · intro h1 h2 h3 h4
    simp only [RiskManager.position_size]
    split_ifs with h
    · exact le_refl 0
    · rw [ratFloor_eq_floor]
      have hmin : (0 : ℚ) ≤ min (rm.equity * rm.risk_per_trade / |entry_price - sl_price|)
          (rm.equity * rm.max_position_pct / entry_price) :=
        le_min (div_nonneg (mul_nonneg h1 h2) (abs_nonneg _))
          (div_nonneg (mul_nonneg h1 h3) h4.le)
      have hfl : (0 : ℤ) ≤ ⌊min (rm.equity * rm.risk_per_trade / |entry_price - sl_price|)
          (rm.equity * rm.max_position_pct / entry_price) * 1000000⌋ :=
        Int.floor_nonneg.mpr (by positivity)
      positivity

/-- C9 witness: with equity 1000, risk 10 percent and cap 100 percent, an
entry at 10 with stop 9 sizes to exactly 100 units, matching the floored
formula and staying nonnegative. -/
theorem c9_witness :
    RiskManager.position_size ⟨1000, 1/10, 1⟩ 10 9 =
      ((⌊min ((1000 : ℚ) * (1/10) / |(10 : ℚ) - 9|) ((1000 : ℚ) * 1 / 10) * 1000000⌋ : ℤ) : ℚ)
        / 1000000
    ∧ 0 ≤ RiskManager.position_size ⟨1000, 1/10, 1⟩ 10 9 := by
  constructor
  · exact (c9_position_size ⟨1000, 1/10, 1⟩ 10 9).2.1 (by norm_num)
  · exact (c9_position_size ⟨1000, 1/10, 1⟩ 10 9).2.2 (by norm_num) (by norm_num)
      (by norm_num) (by norm_num)

/-- C9 counterexample: with a negative account equity the sizing function
returns a negative quantity; the result is floored but not clamped to be
nonnegative. -/
theorem c9_counterexample :
    RiskManager.position_size ⟨-1000, 1/10, 1⟩ 10 9 = -100
    ∧ ¬(0 ≤ RiskManager.position_size ⟨-1000, 1/10, 1⟩ 10 9) := by
  with_unfolding_all decide

/-- C2 counterexample: a TIME exit with pnl 20 on a position with R = 1 and
remaining qty 10 (realized R-multiple 2) leaves daily_R at 0 instead of
crediting 0 + 20/(1*10) = 2 as the claim prescribes. -/
theorem c2_counterexample :
    (manageBT tmTime "A" 12 none 1000 0 posX).dailyR = 0
    ∧ (manageBT tmTime "A" 12 none 1000 0 posX).events =
        [⟨.TIME, "A", .long, 12, 10, some 20, 1020⟩]
    ∧ posX.R = 1
    ∧ (0 : ℚ) ≠ 0 + 20 / (1 * 10) := by
  with_unfolding_all decide

section StopMonotone

variable (tm : TM) (sym : String) (price equity dailyR : ℚ) (a : Option ℚ) (pos : Pos)

theorem manageBT_pos_sl :
    (manageBT tm sym price a equity dailyR pos).pos.sl =
      (updatePhase tm sym price a equity pos).pos.sl := by
  simp only [manageBT]
  split_ifs <;> rfl

theorem manageLive_pos_sl :
    (manageLive tm sym price a equity pos).pos.sl =
      (updatePhase tm sym price a equity pos).pos.sl := by
  simp only [manageLive]
  split_ifs <;> rfl

/-- C5: one per-bar update of an open position never loosens the stop: for a
long position current_stop is non-decreasing, for a short position it is
non-increasing, in both the backtest engine and the live engine. -/
theorem c5_monotone_stop :
    (pos.side = .long →
      pos.sl ≤ (manageBT tm sym price a equity dailyR pos).pos.sl
      ∧ pos.sl ≤ (manageLive tm sym price a equity pos).pos.sl)
    ∧ (pos.side = .short →
      (manageBT tm sym price a equity dailyR pos).pos.sl ≤ pos.sl
      ∧ (manageLive tm sym price a equity pos).pos.sl ≤ pos.sl) := by
  constructor
  · intro h
    rw [manageBT_pos_sl, manageLive_pos_sl]
    exact ⟨updatePhase_sl_long tm sym price equity a pos h,
      updatePhase_sl_long tm sym price equity a pos h⟩
  · intro h
    rw [manageBT_pos_sl, manageLive_pos_sl]
    exact ⟨updatePhase_sl_short tm sym price equity a pos h,
      updatePhase_sl_short tm sym price equity a pos h⟩

/-- C5 witness: on a concrete long position and bar, the stop after the bar is
at least the stop before it, in both engines. -/
theorem c5_witness :
    posX.sl ≤ (manageBT tmX "A" 8 none 1000 0 posX).pos.sl
    ∧ posX.sl ≤ (manageLive tmX "A" 8 none 1000 posX).pos.sl :=
  (c5_monotone_stop tmX "A" 8 1000 0 none posX).1 rfl

end StopMonotone

/-- C3 (amended): the backtest and live engines share the trailing, break-even
and TP1/TP2 logic verbatim, and on any bar where the stop-loss and the
time-stop do not both fire, managing a position produces the same post-bar
position, the same removal decision, the same event sequence and the same
equity in both engines. -/
theorem c3_per_bar_refinement (tm : TM) (sym : String) (price : ℚ) (a : Option ℚ)
    (equity dailyR : ℚ) (pos : Pos)
    (h : ¬(slHitB (updatePhase tm sym price a equity pos).pos.side
            (updatePhase tm sym price a equity pos).pos.sl price = true
          ∧ tm.max_bars_in_trade ≤ pos.bars + 1
          ∧ (updatePhase tm sym price a equity pos).pos.tp2_done = false)) :
    (manageBT tm sym price a equity dailyR pos).pos =
      (manageLive tm sym price a equity pos).pos
    ∧ (manageBT tm sym price a equity dailyR pos).removed =
        (manageLive tm sym price a equity pos).removed
    ∧ (manageBT tm sym price a equity dailyR pos).events =
        (manageLive tm sym price a equity pos).events
    ∧ (manageBT tm sym price a equity dailyR pos).equity =
        (manageLive tm sym price a equity pos).equity := by
  simp only [manageBT, manageLive, updatePhase_bars]
  split_ifs with h1 h2 h3 <;>
    first
    | exact absurd ⟨by assumption, by simpa using h1⟩ h
    | simp_all

/-- C3 witness: a concrete bar where only the stop-loss fires produces the
same events and equity in both engines. -/
theorem c3_witness :
    (manageBT tmX "A" 8 none 1000 0 posX).events = (manageLive tmX "A" 8 none 1000 posX).events
    ∧ (manageBT tmX "A" 8 none 1000 0 posX).equity =
        (manageLive tmX "A" 8 none 1000 posX).equity :=
  have h := c3_per_bar_refinement tmX "A" 8 none 1000 0 posX (by with_unfolding_all decide)
  ⟨h.2.2.1, h.2.2.2⟩

/-- C3 counterexample: on a bar where price is past the stop and the time
limit is reached with the same snapshot and prior state, the backtest emits
only TIME (closing at the bar close) while the live loop emits SL and then
TIME, realizing pnl twice; events and resulting equity differ. -/
theorem c3_counterexample :
    (manageBT tmTime "A" 8 none 1000 0 posX).events ≠
        (manageLive tmTime "A" 8 none 1000 posX).events
    ∧ (manageBT tmTime "A" 8 none 1000 0 posX).equity ≠
        (manageLive tmTime "A" 8 none 1000 posX).equity
    ∧ (manageBT tmTime "A" 8 none 1000 0 posX).events =
        [⟨.TIME, "A", .long, 8, 10, some (-20), 980⟩]
    ∧ (manageLive tmTime "A" 8 none 1000 posX).events =
        [⟨.SL, "A", .long, 9, 10, some (-10), 990⟩, ⟨.TIME, "A", .long, 8, 10, some (-20), 970⟩] := by
  with_unfolding_all decide

section FoldLemmas

variable (tm : TM) (rows : String → BarRow)

theorem managePositions_conserve :
    ∀ (l : List (String × Pos)) (eq dR : ℚ),
      conserveB eq (managePositions tm rows l eq dR).events = true
      ∧ (managePositions tm rows l eq dR).equity =
          replayEquity eq (managePositions tm rows l eq dR).events := by
  intro l
  induction l with
  | nil => intro eq dR; simp [managePositions, conserveB, replayEquity]
  | cons hd tl ih =>
    intro eq dR
    obtain ⟨sym, pos⟩ := hd
    have hm := manageBT_conserve tm sym (rows sym).close eq dR (rows sym).atr pos
    have hr := ih (manageBT tm sym (rows sym).close (rows sym).atr eq dR pos).equity
      (manageBT tm sym (rows sym).close (rows sym).atr eq dR pos).dailyR
    simp only [managePositions]
    constructor
    · rw [conserveB_append, ← hm.2]
      simp [hm.1, hr.1]
    · rw [replayEquity_append, ← hm.2]
      exact hr.2

theorem managePositions_no_enter :
    ∀ (l : List (String × Pos)) (eq dR : ℚ),
      hasEv .ENTER (managePositions tm rows l eq dR).events = false := by
  intro l
  induction l with
  | nil => intro eq dR; simp [managePositions]
  | cons hd tl ih =>
    intro eq dR
    obtain ⟨sym, pos⟩ := hd
    simp only [managePositions]
    simp [manageBT_no_enter, ih]

theorem managePositions_removal :
    ∀ (l : List (String × Pos)) (eq dR : ℚ) (s : String),
      s ∈ l.map Prod.fst →
      s ∉ (managePositions tm rows l eq dR).openPos.map Prod.fst →
      ∃ e ∈ (managePositions tm rows l eq dR).events,
        e.sym = s ∧ (e.ty = .SL ∨ e.ty = .TIME) := by
  intro l
  induction l with
  | nil => intro eq dR s hin _; simp at hin
  | cons hd tl ih =>
    intro eq dR s hin hout
    obtain ⟨sym, pos⟩ := hd
    simp only [managePositions] at hout ⊢
    rw [List.map_cons] at hin
    rcases List.mem_cons.mp hin with hs | hs
    · subst hs
      by_cases hrem :
          (manageBT tm s (rows s).close (rows s).atr eq dR pos).removed = true
      · obtain ⟨e, he, hsym, hty⟩ :=
          manageBT_removed_event tm s (rows s).close eq dR (rows s).atr pos hrem
        exact ⟨e, List.mem_append_left _ he, hsym, hty⟩
      · exfalso
        apply hout
        rw [if_neg hrem]
        simp
    · have hnotr : s ∉ (managePositions tm rows tl
          (manageBT tm sym (rows sym).close (rows sym).atr eq dR pos).equity
          (manageBT tm sym (rows sym).close (rows sym).atr eq dR pos).dailyR).openPos.map
            Prod.fst := by
        intro hmem
        apply hout
        split_ifs <;> simp [hmem]
      obtain ⟨e, he, hsym, hty⟩ := ih
        (manageBT tm sym (rows sym).close (rows sym).atr eq dR pos).equity
        (manageBT tm sym (rows sym).close (rows sym).atr eq dR pos).dailyR s hs hnotr
      exact ⟨e, List.mem_append_right _ he, hsym, hty⟩

end FoldLemmas

section ScanLemmas

variable (p : Params) (rows : String → BarRow) (equity : ℚ)

theorem entryScan_openPos_mono :
    ∀ (syms : List String) (op : List (String × Pos)) (cds : String → ℤ) (s : String),
      s ∈ op.map Prod.fst →
      s ∈ (entryScan p rows equity syms op cds).openPos.map Prod.fst := by
  intro syms
  induction syms with
  | nil => intro op cds s h; exact h
  | cons sym rest ih =>
    intro op cds s h
    simp only [entryScan]
    split_ifs with h1 h2
    · exact ih _ _ s h
    · exact h
    · cases htry : tryEnter p (rows sym) equity with
      | none => simp only [htry]; exact ih _ _ s h
      | some pos =>
        simp only [htry]
        exact ih _ _ s (by rw [List.map_append]; exact List.mem_append_left _ h)

theorem entryScan_events_enter :
    ∀ (syms : List String) (op : List (String × Pos)) (cds : String → ℤ),
      ∀ e ∈ (entryScan p rows equity syms op cds).events,
        e.ty = .ENTER ∧ e.pnl = none ∧ e.equity = equity := by
  intro syms
  induction syms with
  | nil => intro op cds e he; simp [entryScan] at he
  | cons sym rest ih =>
    intro op cds e
    simp only [entryScan]
    split_ifs with h1 h2
    · exact ih _ _ e
    · intro he; simp at he
    · cases htry : tryEnter p (rows sym) equity with
      | none => simp only [htry]; exact ih _ _ e
      | some pos =>
        simp only [htry]
        intro he
        rcases List.mem_cons.mp he with he | he
        · subst he; exact ⟨rfl, rfl, rfl⟩
        · exact ih _ _ e he

theorem entryScan_cds_not_mem :
    ∀ (syms : List String) (op : List (String × Pos)) (cds : String → ℤ) (s : String),
      s ∉ syms →
      (entryScan p rows equity syms op cds).cooldowns s = cds s := by
  intro syms
  induction syms with
  | nil => intro op cds s _; rfl
  | cons sym rest ih =>
    intro op cds s hs
    obtain ⟨hsne, hsnr⟩ := not_or.mp (fun h => hs (List.mem_cons.mpr h))
    simp only [entryScan]
    split_ifs with h1 h2
    · rw [ih _ _ s hsnr]
      simp [hsne]
    · rfl
    · cases htry : tryEnter p (rows sym) equity with
      | none => simp only [htry]; exact ih _ _ s hsnr
      | some pos => simp only [htry]; exact ih _ _ s hsnr

theorem entryScan_cds_cases :
    ∀ (syms : List String), syms.Nodup →
      ∀ (op : List (String × Pos)) (cds : String → ℤ) (s : String),
        (entryScan p rows equity syms op cds).cooldowns s = cds s
        ∨ (entryScan p rows equity syms op cds).cooldowns s = max 0 (cds s - 1) := by
  intro syms
  induction syms with
  | nil => intro _ op cds s; left; rfl
  | cons sym rest ih =>
    intro hnd op cds s
    have hnm : sym ∉ rest := (List.nodup_cons.mp hnd).1
    have hndr : rest.Nodup := (List.nodup_cons.mp hnd).2
    simp only [entryScan]
    split_ifs with h1 h2
    · by_cases hss : s = sym
      · subst hss
        right
        rw [entryScan_cds_not_mem p rows equity rest _ _ s hnm]
        simp
      · rcases ih hndr op (fun t => if t = sym then max 0 (cds sym - 1) else cds t) s
            with h | h
        · left; rw [h]; simp [hss]
        · right; rw [h]; simp [hss]
    · left; rfl
    · cases htry : tryEnter p (rows sym) equity with
      | none => simp only [htry]; exact ih hndr _ _ s
      | some pos => simp only [htry]; exact ih hndr _ _ s

theorem entryScan_cds_zero :
    ∀ (syms : List String) (op : List (String × Pos)) (cds : String → ℤ),
      (∀ s, cds s = 0) →
      ∀ s, (entryScan p rows equity syms op cds).cooldowns s = 0 := by
  intro syms
  induction syms with
  | nil => intro op cds h0 s; exact h0 s
  | cons sym rest ih =>
    intro op cds h0 s
    simp only [entryScan]
    split_ifs with h1 h2
    · refine ih _ _ ?_ s
      intro t
      by_cases ht : t = sym <;> simp [ht, h0]
    · exact h0 s
    · cases htry : tryEnter p (rows sym) equity with
      | none => simp only [htry]; exact ih _ _ h0 s
      | some pos => simp only [htry]; exact ih _ _ h0 s

theorem entryScan_conserve :
    ∀ (syms : List String) (op : List (String × Pos)) (cds : String → ℤ),
      conserveB equity (entryScan p rows equity syms op cds).events = true
      ∧ replayEquity equity (entryScan p rows equity syms op cds).events = equity := by
  intro syms
  induction syms with
  | nil => intro op cds; constructor <;> rfl
  | cons sym rest ih =>
    intro op cds
    simp only [entryScan]
    split_ifs with h1 h2
    · exact ih _ _
    · constructor <;> rfl
    · cases htry : tryEnter p (rows sym) equity with
      | none => simp only [htry]; exact ih _ _
      | some pos =>
        simp only [htry]
        have hr := ih (op ++ [(sym, pos)]) cds
        constructor
        · simp [conserveB, stepEquity, hr.1]
        · simp [replayEquity, stepEquity, hr.2]

end ScanLemmas

section BarStepLemmas

@[simp] theorem dayReset_openPos (st : PortState) (day : ℕ) :
    (if st.lastDay = some day then st
      else { st with dailyR := 0, lastDay := some day }).openPos = st.openPos := by
  split_ifs <;> rfl

@[simp] theorem dayReset_equity (st : PortState) (day : ℕ) :
    (if st.lastDay = some day then st
      else { st with dailyR := 0, lastDay := some day }).equity = st.equity := by
  split_ifs <;> rfl

@[simp] theorem dayReset_cooldowns (st : PortState) (day : ℕ) :
    (if st.lastDay = some day then st
      else { st with dailyR := 0, lastDay := some day }).cooldowns = st.cooldowns := by
  split_ifs <;> rfl

theorem barStepBT_conserve (p : Params) (symbols : List String) (rows : String → BarRow)
    (day : ℕ) (st : PortState) :
    conserveB st.equity (barStepBT p symbols rows day st).2 = true
    ∧ (barStepBT p symbols rows day st).1.equity =
        replayEquity st.equity (barStepBT p symbols rows day st).2 := by
  simp only [barStepBT, dayReset_openPos, dayReset_equity, dayReset_cooldowns]
  generalize (if st.lastDay = some day then st
      else { st with dailyR := 0, lastDay := some day }).dailyR = dR
  have hf := managePositions_conserve p.tm rows st.openPos st.equity dR
  split_ifs with hbrk
  · have hs := entryScan_conserve p rows
      (managePositions p.tm rows st.openPos st.equity dR).equity symbols
      (managePositions p.tm rows st.openPos st.equity dR).openPos st.cooldowns
    constructor
    · rw [conserveB_append, ← hf.2]
      simp [hf.1, hs.1]
    · rw [replayEquity_append, ← hf.2, hs.2]
  · exact ⟨hf.1, hf.2⟩

end BarStepLemmas

/-- C8 (amended): when a bar's close crosses the (post-update) current stop
and the time-stop does not also fire on that bar, the backtest closes the
full remaining quantity at the stop price exactly, with pnl = (stop-entry)*qty
for a long and (entry-stop)*qty for a short; and on every bar of the backtest,
each record's stored equity equals the running equity before it plus its own
pnl, with the post-bar equity equal to the replayed running equity. -/
theorem c8_stop_exit (tm : TM) (sym : String) (price : ℚ) (a : Option ℚ)
    (equity dailyR : ℚ) (pos : Pos) :
    (slHitB (updatePhase tm sym price a equity pos).pos.side
        (updatePhase tm sym price a equity pos).pos.sl price = true →
      ¬(tm.max_bars_in_trade ≤ pos.bars + 1
        ∧ (updatePhase tm sym price a equity pos).pos.tp2_done = false) →
      (manageBT tm sym price a equity dailyR pos).removed = true
      ∧ (manageBT tm sym price a equity dailyR pos).events.filter (fun e => e.ty == .SL) =
          [⟨.SL, sym, (updatePhase tm sym price a equity pos).pos.side,
            (updatePhase tm sym price a equity pos).pos.sl,
            (updatePhase tm sym price a equity pos).pos.qty,
            some (pnlOf (updatePhase tm sym price a equity pos).pos.side pos.entry
              (updatePhase tm sym price a equity pos).pos.sl
              (updatePhase tm sym price a equity pos).pos.qty),
            (updatePhase tm sym price a equity pos).equity
              + pnlOf (updatePhase tm sym price a equity pos).pos.side pos.entry
                  (updatePhase tm sym price a equity pos).pos.sl
                  (updatePhase tm sym price a equity pos).pos.qty⟩])
    ∧ (∀ (P : Params) (symbols : List String) (rws : String → BarRow) (day : ℕ)
        (st : PortState),
        conserveB st.equity (barStepBT P symbols rws day st).2 = true
        ∧ (barStepBT P symbols rws day st).1.equity =
            replayEquity st.equity (barStepBT P symbols rws day st).2) := by
  constructor
  · intro hsl hnt
    have hfil : (updatePhase tm sym price a equity pos).events.filter
        (fun e => e.ty == EType.SL) = [] :=
      filter_eq_nil_of_hasEv_false _ _ (updatePhase_hasEv_SL tm sym price equity a pos)
    simp only [manageBT]
    rw [if_neg (fun hc => hnt (by simpa using hc))]
    rw [if_pos (show slHitB _ _ price = true by simpa using hsl)]
    refine ⟨rfl, ?_⟩
    simp [List.filter_append, hfil]
  · intro P symbols rws day st
    exact barStepBT_conserve P symbols rws day st

/-- C8 witness: a concrete long position stopped out on a bar closes its full
quantity at the stop price 9 (not the close 8) with pnl -10, and is removed. -/
theorem c8_witness :
    (manageBT tmX "A" 8 none 1000 0 posX).events.filter (fun e => e.ty == .SL) =
      [⟨.SL, "A", .long, 9, 10, some (-10), 990⟩]
    ∧ (manageBT tmX "A" 8 none 1000 0 posX).removed = true := by
  have h := (c8_stop_exit tmX "A" 8 none 1000 0 posX).1
    (by with_unfolding_all decide) (by with_unfolding_all decide)
  constructor
  · rw [h.2]
    with_unfolding_all decide
  · exact h.1

theorem hasEv_of_mem {t : EType} {e : Event} {l : List Event}
    (he : e ∈ l) (ht : e.ty = t) : hasEv t l = true := by
  simp only [hasEv, List.any_eq_true]
  exact ⟨e, he, by simp [ht]⟩

/-- C1 (amended): an ENTER record can be emitted on a bar only when the
current daily_R after that bar's exits is strictly above the circuit-breaker
cap; the breaker is re-evaluated from the current daily_R on every bar, so
once daily_R recovers above the cap intraday (for instance through TP1/TP2
credits) entry scanning resumes before the next day boundary. -/
theorem c1_enter_gate (p : Params) (symbols : List String) (rows : String → BarRow)
    (day : ℕ) (st : PortState) (e : Event)
    (he : e ∈ (barStepBT p symbols rows day st).2) (hty : e.ty = .ENTER) :
    p.daily_loss_cap_R < (barStepBT p symbols rows day st).1.dailyR := by
  revert he
  simp only [barStepBT, dayReset_openPos, dayReset_equity, dayReset_cooldowns]
  generalize (if st.lastDay = some day then st
      else { st with dailyR := 0, lastDay := some day }).dailyR = dR
  split_ifs with hbrk <;> intro he
  · exact hbrk
  · exact absurd (hasEv_of_mem he hty)
      (by simp [managePositions_no_enter p.tm rows st.openPos st.equity dR])

/-- C1 witness: on a concrete first bar with fresh state, an ENTER record is
emitted and daily_R (0) is indeed above the cap (-1). -/
theorem c1_witness :
    pC1.daily_loss_cap_R < (barStepBT pC1 ["A", "B"] rowsC1a 0 (initState 1000)).1.dailyR :=
  c1_enter_gate pC1 ["A", "B"] rowsC1a 0 (initState 1000)
    ⟨.ENTER, "A", .long, 10, 100, none, 1000⟩
    (by with_unfolding_all decide) rfl

/-- C1 counterexample: a three-bar run inside one calendar day in which
daily_R reaches the cap (-1) on the second bar via a stop-loss, recovers to 0
on the third bar via a TP1 credit, and that same third bar emits a fresh
ENTER — the breaker does not latch for the remainder of the day. -/
theorem c1_counterexample :
    stC1b.dailyR ≤ pC1.daily_loss_cap_R
    ∧ stC1b.lastDay = some 0
    ∧ hasEv .TP1 (barStepBT pC1 ["A", "B"] rowsC1c 0 stC1b).2 = true
    ∧ hasEv .ENTER (barStepBT pC1 ["A", "B"] rowsC1c 0 stC1b).2 = true
    ∧ (barStepBT pC1 ["A", "B"] rowsC1c 0 stC1b).1.lastDay = some 0 := by
  with_unfolding_all decide


/-- C4: a symbol leaves the open-position set over a bar only when an SL or a
TIME record for that symbol was emitted that bar; a TP2 fill only reduces the
quantity by p2_pct of the current quantity and latches tp2_done; and the
per-position removal flag is set exactly when an SL or TIME record exists. -/
theorem c4_removal_only_sl_time :
    (∀ (p : Params) (symbols : List String) (rows : String → BarRow) (day : ℕ)
        (st : PortState) (s : String),
      s ∈ st.openPos.map Prod.fst →
      s ∉ (barStepBT p symbols rows day st).1.openPos.map Prod.fst →
      ∃ e ∈ (barStepBT p symbols rows day st).2, e.sym = s ∧ (e.ty = .SL ∨ e.ty = .TIME))
    ∧ (∀ (tm : TM) (sym : String) (price equity : ℚ) (pos : Pos),
        (tp2Phase tm sym price equity pos).fired = true →
        (tp2Phase tm sym price equity pos).pos.qty = pos.qty - pos.qty * tm.p2_pct
        ∧ (tp2Phase tm sym price equity pos).pos.tp2_done = true)
    ∧ (∀ (tm : TM) (sym : String) (price : ℚ) (a : Option ℚ) (equity dailyR : ℚ)
        (pos : Pos),
        (manageBT tm sym price a equity dailyR pos).removed =
          (hasEv .SL (manageBT tm sym price a equity dailyR pos).events
            || hasEv .TIME (manageBT tm sym price a equity dailyR pos).events)) := by
  refine ⟨?_, ?_, ?_⟩
  · intro p symbols rows day st s hin hout
    revert hout
    simp only [barStepBT, dayReset_openPos, dayReset_equity, dayReset_cooldowns]
    generalize (if st.lastDay = some day then st
        else { st with dailyR := 0, lastDay := some day }).dailyR = dR
    split_ifs with hbrk <;> intro hout
    · have hnf : s ∉ (managePositions p.tm rows st.openPos st.equity dR).openPos.map
          Prod.fst := fun hmem =>
        hout (entryScan_openPos_mono p rows
          (managePositions p.tm rows st.openPos st.equity dR).equity symbols
          (managePositions p.tm rows st.openPos st.equity dR).openPos st.cooldowns s hmem)
      obtain ⟨e, he, h⟩ := managePositions_removal p.tm rows st.openPos st.equity dR s hin hnf
      exact ⟨e, List.mem_append_left _ he, h⟩
    · obtain ⟨e, he, h⟩ := managePositions_removal p.tm rows st.openPos st.equity dR s hin hout
      exact ⟨e, he, h⟩
  · intro tm sym price equity pos
    unfold tp2Phase
    split_ifs <;> intro h <;> simp_all
  · intro tm sym price a equity dailyR pos
    exact manageBT_removed_iff tm sym price equity dailyR a pos

/-- C4 witness: on a concrete bar the stopped-out symbol A leaves the open
set with an SL record attesting it. -/
theorem c4_witness :
    ∃ e ∈ (barStepBT pC1 ["A", "B"] rowsC1b 0 stC1a).2,
      e.sym = "A" ∧ (e.ty = .SL ∨ e.ty = .TIME) :=
  c4_removal_only_sl_time.1 pC1 ["A", "B"] rowsC1b 0 stC1a "A"
    (by with_unfolding_all decide) (by with_unfolding_all decide)

/-- C6 (amended): when the circuit breaker is triggered (post-exit daily_R at
or below the cap) the whole entry block is skipped, so no cooldown counter
changes at all that bar; when the breaker is not triggered, each counter
either stays or is decremented by one clamped at zero (the scan decrements
the counters of open or cooling-down symbols it reaches, whether or not the
symbol has an open position). -/
theorem c6_cooldown_decrement (p : Params) (symbols : List String)
    (rows : String → BarRow) (day : ℕ) (st : PortState) :
    ((barStepBT p symbols rows day st).1.dailyR ≤ p.daily_loss_cap_R →
      ∀ s, (barStepBT p symbols rows day st).1.cooldowns s = st.cooldowns s)
    ∧ (symbols.Nodup → ∀ s,
        (barStepBT p symbols rows day st).1.cooldowns s = st.cooldowns s
        ∨ (barStepBT p symbols rows day st).1.cooldowns s = max 0 (st.cooldowns s - 1)) := by
  simp only [barStepBT, dayReset_openPos, dayReset_equity, dayReset_cooldowns]
  generalize (if st.lastDay = some day then st
      else { st with dailyR := 0, lastDay := some day }).dailyR = dR
  split_ifs with hbrk
  · constructor
    · intro habs
      exact absurd hbrk (not_lt.mpr habs)
    · intro hnd s
      exact entryScan_cds_cases p rows
        (managePositions p.tm rows st.openPos st.equity dR).equity symbols hnd
        (managePositions p.tm rows st.openPos st.equity dR).openPos st.cooldowns s
  · constructor
    · intro _ s; rfl
    · intro _ s; left; rfl

/-- C6 witness: on the breaker-triggered bar the stale cooldown of B is left
untouched, and on the untriggered bar the cooldown of the open symbol A moves
by at most a clamped decrement. -/
theorem c6_witness :
    (barStepBT pC6 ["A", "B"] rowsC6 0 stC6a).1.cooldowns "B" = stC6a.cooldowns "B"
    ∧ ((barStepBT pC6 ["A", "B"] rowsC6 0 stC6b).1.cooldowns "A" = stC6b.cooldowns "A"
        ∨ (barStepBT pC6 ["A", "B"] rowsC6 0 stC6b).1.cooldowns "A" =
            max 0 (stC6b.cooldowns "A" - 1)) := by
  constructor
  · exact (c6_cooldown_decrement pC6 ["A", "B"] rowsC6 0 stC6a).1
      (by with_unfolding_all decide) "B"
  · exact (c6_cooldown_decrement pC6 ["A", "B"] rowsC6 0 stC6b).2
      (by with_unfolding_all decide) "A"

/-- C6 counterexample: on a bar whose daily_R is at the cap, the positive
cooldown of B stays 2 instead of being decremented to 1 (the skip covers the
whole entry block, decrements included); and on a breaker-free bar the
counter of A is decremented from 5 to 4 even though A has an open position,
against the "only when the symbol has no open position" part of the claim. -/
theorem c6_counterexample :
    ((barStepBT pC6 ["A", "B"] rowsC6 0 stC6a).1.dailyR ≤ pC6.daily_loss_cap_R
      ∧ (barStepBT pC6 ["A", "B"] rowsC6 0 stC6a).1.cooldowns "B" = 2)
    ∧ ((barStepBT pC6 ["A", "B"] rowsC6 0 stC6b).1.cooldowns "A" = 4
      ∧ "A" ∈ (barStepBT pC6 ["A", "B"] rowsC6 0 stC6b).1.openPos.map Prod.fst) := by
  with_unfolding_all decide


section CooldownInvariant

theorem barStepBT_cds_zero (p : Params) (symbols : List String) (rows : String → BarRow)
    (day : ℕ) (st : PortState) (h0 : ∀ s, st.cooldowns s = 0) :
    ∀ s, (barStepBT p symbols rows day st).1.cooldowns s = 0 := by
  simp only [barStepBT, dayReset_openPos, dayReset_equity, dayReset_cooldowns]
  generalize (if st.lastDay = some day then st
      else { st with dailyR := 0, lastDay := some day }).dailyR = dR
  split_ifs with hbrk
  · intro s
    exact entryScan_cds_zero p rows
      (managePositions p.tm rows st.openPos st.equity dR).equity symbols
      (managePositions p.tm rows st.openPos st.equity dR).openPos st.cooldowns h0 s
  · exact h0

theorem runBT_cds_zero (p : Params) (symbols : List String) :
    ∀ (bars : List (ℕ × (String → BarRow))) (st : PortState),
      (∀ s, st.cooldowns s = 0) →
      ∀ s, (runBT p symbols st bars).1.cooldowns s = 0 := by
  intro bars
  induction bars with
  | nil => intro st h0 s; exact h0 s
  | cons b rest ih =>
    intro st h0 s
    obtain ⟨day, rows⟩ := b
    simp only [runBT]
    exact ih (barStepBT p symbols rows day st).1
      (barStepBT_cds_zero p symbols rows day st h0) s

theorem tryEnter_cd_irrel (a b : ℚ) (c : ℕ) (d : ℚ) (k k' : ℤ) (tm : TM)
    (row : BarRow) (equity : ℚ) :
    tryEnter ⟨a, b, c, d, k, tm⟩ row equity = tryEnter ⟨a, b, c, d, k', tm⟩ row equity := rfl

theorem entryScan_cd_irrel (a b : ℚ) (c : ℕ) (d : ℚ) (k k' : ℤ) (tm : TM)
    (rows : String → BarRow) (equity : ℚ) :
    ∀ (syms : List String) (op : List (String × Pos)) (cds : String → ℤ),
      entryScan ⟨a, b, c, d, k, tm⟩ rows equity syms op cds
        = entryScan ⟨a, b, c, d, k', tm⟩ rows equity syms op cds := by
  intro syms
  induction syms with
  | nil => intro op cds; rfl
  | cons sym rest ih =>
    intro op cds
    simp only [entryScan]
    rw [show tryEnter ⟨a, b, c, d, k', tm⟩ (rows sym) equity
        = tryEnter ⟨a, b, c, d, k, tm⟩ (rows sym) equity from rfl]
    split_ifs <;>
      first
      | rfl
      | apply ih
      | (cases htry : tryEnter (⟨a, b, c, d, k, tm⟩ : Params) (rows sym) equity <;>
          simp only [htry] <;> simp [ih])

theorem barStepBT_cd_irrel (a b : ℚ) (c : ℕ) (d : ℚ) (k k' : ℤ) (tm : TM)
    (symbols : List String) (rows : String → BarRow) (day : ℕ) (st : PortState) :
    barStepBT ⟨a, b, c, d, k, tm⟩ symbols rows day st
      = barStepBT ⟨a, b, c, d, k', tm⟩ symbols rows day st := by
  simp only [barStepBT, entryScan_cd_irrel a b c d k k' tm]

theorem runBT_cd_irrel (a b : ℚ) (c : ℕ) (d : ℚ) (k k' : ℤ) (tm : TM)
    (symbols : List String) :
    ∀ (bars : List (ℕ × (String → BarRow))) (st : PortState),
      runBT ⟨a, b, c, d, k, tm⟩ symbols st bars
        = runBT ⟨a, b, c, d, k', tm⟩ symbols st bars := by
  intro bars
  induction bars with
  | nil => intro st; rfl
  | cons bb rest ih =>
    intro st
    obtain ⟨day, rows⟩ := bb
    simp only [runBT, barStepBT_cd_irrel a b c d k k' tm, ih]

end CooldownInvariant

/-- C10: starting from any all-zero cooldown table (as the backtest does), the
cooldown counters remain 0 in every reachable state of the run (they are only
ever decremented with a clamp at 0 and never set after a loss), so the
cooldown mechanism never blocks an entry; and the run's result does not
depend on the cooldown_bars_after_loss parameter at all. -/
theorem c10_cooldowns_always_zero :
    (∀ (p : Params) (symbols : List String) (st : PortState)
        (bars : List (ℕ × (String → BarRow))),
      (∀ s, st.cooldowns s = 0) →
      ∀ s, (runBT p symbols st bars).1.cooldowns s = 0)
    ∧ (∀ (equity0 : ℚ) (s : String), (initState equity0).cooldowns s = 0)
    ∧ (∀ (p : Params) (k k' : ℤ) (symbols : List String) (st : PortState)
        (bars : List (ℕ × (String → BarRow))),
        runBT { p with cooldown_bars_after_loss := k } symbols st bars
          = runBT { p with cooldown_bars_after_loss := k' } symbols st bars) := by
  refine ⟨?_, ?_, ?_⟩
  · intro p symbols st bars h0 s
    exact runBT_cds_zero p symbols bars st h0 s
  · intro equity0 s; rfl
  · intro p k k' symbols st bars
    obtain ⟨a, b, c, d, k0, tm⟩ := p
    exact runBT_cd_irrel a b c d k k' tm symbols bars st

/-- C10 witness: a concrete two-bar run from the initial state (one entry bar,
one stop-out bar) ends with the cooldown counter of A still 0. -/
theorem c10_witness :
    (runBT pC1 ["A", "B"] (initState 1000) [(0, rowsC1a), (0, rowsC1b)]).1.cooldowns "A" = 0 :=
  c10_cooldowns_always_zero.1 pC1 ["A", "B"] (initState 1000)
    [(0, rowsC1a), (0, rowsC1b)] (fun _ => rfl) "A"


/-- C8 counterexample: on a bar where the close 7 has crossed the stop 9 but
the time limit is also reached, the position is closed by the time-stop at
the close price 7, with no SL record at all — not at the stop price as the
claim universally states. -/
theorem c8_counterexample :
    slHitB (updatePhase tmTime "A" 7 none 1000 posX).pos.side
        (updatePhase tmTime "A" 7 none 1000 posX).pos.sl 7 = true
    ∧ hasEv .SL (manageBT tmTime "A" 7 none 1000 0 posX).events = false
    ∧ (manageBT tmTime "A" 7 none 1000 0 posX).events =
        [⟨.TIME, "A", .long, 7, 10, some (-30), 970⟩] := by
  with_unfolding_all decide

end Bot
